import Mathlib

/-!
Verification of the Marker encoding/decoding and coordinate-filtering
subsystem of the `bseq` library (`src/bseq/marker.py`).

The Python classes are embedded shallowly:

* `Marker.__init__` / `Marker._encode`  → `encodeRuns`, `encodePos`,
  `encodeChars`, `mkMarker`
* `Marker.check_sequence`               → `check_sequence`
* `Marker.sequence` (the decoder)       → `Marker.sequence` via `expandRuns`
* `Marker.coords` (`explicit=True`)     → `Marker.coords` via `coordsRuns`
* `Marker.filter`                       → `Marker.filterCoords` (the
  `output_coords=True` result) and `Marker.filterSeq` (the string result)
* `Marker.mask`                         → `Marker.mask`
* `Marker.__len__`                      → `Marker.len` (`Option Nat`:
  `_pos_list[-1]` raises `IndexError` on an empty marker, modelled as `none`)
* `ConsAlignMarker`                     → `mkConsAlignMarker`,
  `Marker.consistent_sites`, `Marker.inconsistent_sites`

Python exceptions (`ValueError` from `check_sequence`, `AssertionError` from
the length assertions, `IndexError` from `__len__` on an empty marker) are
modelled with `Except String` / `Option`.
-/

namespace Bseq

/-- The loop body of `Marker._encode` (marker.py lines 218-224): walking the
marker string left to right with `enumerate`, a new run is opened at index `i`
exactly when the character list is still empty or its last element differs
from the current character.  `last` carries the character of the run currently
open (`char_list[-1]`; `none` before the first character), `i` is the
enumeration index.  The first component collects `pos_list` (the run start
positions, before the final `len(sequence)` is appended), the second collects
`char_list`. -/
def encodeRuns : Option Char → Nat → List Char → List Nat × List Char
  | _, _, [] => ([], [])
  | last, i, c :: rest =>
    if last = some c then encodeRuns (some c) (i + 1) rest
    else
      ((i :: (encodeRuns (some c) (i + 1) rest).1),
       (c :: (encodeRuns (some c) (i + 1) rest).2))

/-- Consecutive pairing `[(pos_list[i], pos_list[i+1]) for i in
range(len(pos_list)-1)]` from `Marker._encode` (marker.py lines 225-227). -/
def pairConsec : List Nat → List (Nat × Nat)
  | a :: b :: rest => (a, b) :: pairConsec (b :: rest)
  | _ => []

/-- The boundary list of `Marker._encode`: the collected run starts followed
by `len(sequence)` (marker.py line 224). -/
def encodeBounds (s : List Char) : List Nat :=
  (encodeRuns none 0 s).1 ++ [s.length]

/-- `self._pos_list` produced by `Marker._encode(s)`. -/
def encodePos (s : List Char) : List (Nat × Nat) :=
  pairConsec (encodeBounds s)

/-- `self._char_list` produced by `Marker._encode(s)`. -/
def encodeChars (s : List Char) : List Char :=
  (encodeRuns none 0 s).2

/-- The `ValueError` message raised by `Marker.check_sequence`
(marker.py lines 203-207). -/
def allowedMessage (c : Char) (allowed : List Char) : String :=
  "character " ++ c.toString ++
    " is not one of the allowed characters in the sequence (" ++
    String.intercalate ", " (allowed.map Char.toString) ++ ")"

/-- `Marker.check_sequence` (marker.py lines 183-207): raises `ValueError`
when some character of `sequence` is missing from `allowed_chars`.  Python
iterates over `set(sequence)` whose order is unspecified; we report the first
offending character in list order, which raises under exactly the same
condition. -/
def check_sequence (sequence : List Char) (allowed_chars : List Char) :
    Except String Unit :=
  match sequence.find? (fun c => ! allowed_chars.contains c) with
  | some c => Except.error (allowedMessage c allowed_chars)
  | none => Except.ok ()

/-- The state of a constructed `Marker` object: `name`, `char_description`
(an association list standing for the Python dict; its keys are the allowed
characters), and the encoded representation `_pos_list` / `_char_list`. -/
structure Marker where
  name : String
  char_description : List (Char × String)
  pos_list : List (Nat × Nat)
  char_list : List Char
deriving DecidableEq

/-- `Marker.__init__` (marker.py lines 26-53): encode the marker sequence,
then validate `_char_list` against the keys of `char_description`;
a `ValueError` from `check_sequence` aborts construction. -/
def mkMarker (name : String) (char_description : List (Char × String))
    (marker_sequence : List Char) : Except String Marker :=
  match check_sequence (encodeChars marker_sequence)
      (char_description.map Prod.fst) with
  | Except.error e => Except.error e
  | Except.ok _ =>
      Except.ok
        ⟨name, char_description, encodePos marker_sequence,
          encodeChars marker_sequence⟩

/-- Decoding a `(pos_list, char_list)` pair: each interval `(start, end)`
expands to `end - start` copies of its character, concatenated in order
(the body of the `Marker.sequence` property, marker.py lines 59-63). -/
def expandRuns (pos_list : List (Nat × Nat)) (char_list : List Char) :
    List Char :=
  ((pos_list.zip char_list).map
    (fun pc => List.replicate (pc.1.2 - pc.1.1) pc.2)).flatten

/-- The `Marker.sequence` property (marker.py lines 55-63). -/
def Marker.sequence (m : Marker) : List Char :=
  expandRuns m.pos_list m.char_list

/-- `Marker.__len__` (marker.py lines 233-234): `self._pos_list[-1][-1]`.
On an empty marker `_pos_list` is the empty tuple and the subscript raises
`IndexError`, modelled by `none`. -/
def Marker.len (m : Marker) : Option Nat :=
  m.pos_list.getLast?.map (fun pc => pc.2)

/-- The run-selection test of `Marker.coords` (marker.py line 110):
`(char == c and not inverse) or (char != c and inverse)`. -/
def coordsPred (char : Char) (inverse : Bool) (c : Char) : Bool :=
  (char == c && ! inverse) || (char != c && inverse)

/-- The accumulation loop of `Marker.coords` with `explicit=True`
(marker.py lines 108-115): for each stored run whose character passes `p`,
append `range(start, end)`. -/
def coordsRuns (p : Char → Bool) (pos_list : List (Nat × Nat))
    (char_list : List Char) : List Nat :=
  (pos_list.zip char_list).flatMap
    (fun pc => if p pc.2 then List.range' pc.1.1 (pc.1.2 - pc.1.1) else [])

/-- `Marker.coords` with `explicit=True` (marker.py lines 81-115). -/
def Marker.coords (m : Marker) (char : Char) (inverse : Bool) : List Nat :=
  coordsRuns (coordsPred char inverse) m.pos_list m.char_list

/-- Message for the `IndexError` raised by `len(self)` on an empty marker. -/
def lenError : String :=
  "tuple index out of range"

/-- Message for the failed `assert len(sequence) == len(self)`. -/
def assertError : String :=
  "AssertionError"

/-- Python's `sorted(set(coords))` on a list of positions. -/
def sortedSet (coords : List Nat) : List Nat :=
  coords.dedup.insertionSort (· ≤ ·)

/-- The kept coordinates computed by `Marker.filter` (marker.py lines
117-151): after `assert len(sequence) == len(self)` (whose evaluation of
`len(self)` raises `IndexError` on an empty marker), the union over
`exclude_chars` of `self.coords(c, inverse=True if not inverse else False)`
is deduplicated and sorted; with `output_coords=True` this list is the
result. -/
def Marker.filterCoords (m : Marker) (sequence : List Char)
    (exclude_chars : List Char) (inverse : Bool) : Except String (List Nat) :=
  match m.len with
  | none => Except.error lenError
  | some n =>
    if sequence.length = n then
      Except.ok (sortedSet
        (exclude_chars.flatMap (fun c => m.coords c (! inverse))))
    else Except.error assertError

/-- `Marker.filter` with `output_coords=False` (the default): the kept
coordinates are used to index into the sequence and the selected characters
are joined (marker.py line 151). -/
def Marker.filterSeq (m : Marker) (sequence : List Char)
    (exclude_chars : List Char) (inverse : Bool) : Except String (List Char) :=
  (m.filterCoords sequence exclude_chars inverse).map
    (fun coords => coords.filterMap (fun i => sequence[i]?))

/-- `Marker.mask` (marker.py lines 153-181): after the length assertion, the
union over `exclude_chars` of `self.coords(c, inverse=False)` is deduplicated
and sorted, and the characters at those positions are replaced by
`mask_char`. -/
def Marker.mask (m : Marker) (sequence : List Char)
    (exclude_chars : List Char) (mask_char : Char) :
    Except String (List Char) :=
  match m.len with
  | none => Except.error lenError
  | some n =>
    if sequence.length = n then
      Except.ok
        ((sortedSet (exclude_chars.flatMap (fun c => m.coords c false))).foldl
          (fun arr i => arr.set i mask_char) sequence)
    else Except.error assertError

/-- The default `char_description` of `ConsAlignMarker`
(marker.py lines 243-246). -/
def consAlignCharDescription : List (Char × String) :=
  [('C', "consistent site"), ('N', "inconsistent site")]

/-- `ConsAlignMarker.__init__` with the default arguments
(marker.py lines 240-266). -/
def mkConsAlignMarker (marker_sequence : List Char) : Except String Marker :=
  mkMarker "ConsAlign_marker_sequence" consAlignCharDescription
    marker_sequence

/-- `ConsAlignMarker.consistent_sites` (marker.py lines 268-288):
`self.filter(aligned_sequence, marker_char, inverse=True)`.  The Python
default for `marker_char` is `'C'`. -/
def Marker.consistent_sites (m : Marker) (aligned_sequence : List Char)
    (marker_char : Char) : Except String (List Char) :=
  m.filterSeq aligned_sequence [marker_char] true

/-- `ConsAlignMarker.inconsistent_sites` (marker.py lines 290-310):
`self.filter(aligned_sequence, marker_char, inverse=True)`.  The Python
default for `marker_char` is `'N'`. -/
def Marker.inconsistent_sites (m : Marker) (aligned_sequence : List Char)
    (marker_char : Char) : Except String (List Char) :=
  m.filterSeq aligned_sequence [marker_char] true

/-! ### Basic unfolding lemmas for the encoder -/

theorem encodeRuns_nil (last : Option Char) (i : Nat) :
    encodeRuns last i [] = ([], []) := rfl

theorem encodeRuns_cons_eq {last : Option Char} {c : Char} (i : Nat)
    (r : List Char) (h : last = some c) :
    encodeRuns last i (c :: r) = encodeRuns (some c) (i + 1) r := by
  simp [encodeRuns, h]

theorem encodeRuns_cons_ne {last : Option Char} {c : Char} (i : Nat)
    (r : List Char) (h : ¬ last = some c) :
    encodeRuns last i (c :: r) =
      ((i :: (encodeRuns (some c) (i + 1) r).1),
       (c :: (encodeRuns (some c) (i + 1) r).2)) := by
  simp [encodeRuns, h]

theorem pairConsec_cons_cons (a b : Nat) (l : List Nat) :
    pairConsec (a :: b :: l) = (a, b) :: pairConsec (b :: l) := rfl

theorem expandRuns_cons (a b : Nat) (c : Char) (pl : List (Nat × Nat))
    (cl : List Char) :
    expandRuns ((a, b) :: pl) (c :: cl) =
      List.replicate (b - a) c ++ expandRuns pl cl := by
  simp [expandRuns]

/-! ### Decode after encode is the identity -/

/-- Generalized decode lemma: if a run of `k + 1` copies of `c0` is pending
(started at position `i - k`, the encoder continuing at position `i + 1`),
expanding the resulting intervals reproduces the pending run followed by the
remaining input. -/
theorem expand_encodeRuns (s : List Char) :
    ∀ (c0 : Char) (i k : Nat), k ≤ i →
      expandRuns
        (pairConsec (((i - k) :: (encodeRuns (some c0) (i + 1) s).1)
          ++ [i + 1 + s.length]))
        (c0 :: (encodeRuns (some c0) (i + 1) s).2)
      = List.replicate (k + 1) c0 ++ s := by
  induction s with
  | nil =>
    intro c0 i k hk
    simp [encodeRuns, pairConsec, expandRuns]
    omega
  | cons d r ih =>
    intro c0 i k hk
    by_cases hc : c0 = d
    · subst hc
      rw [encodeRuns_cons_eq _ _ rfl]
      have h2 := ih c0 (i + 1) (k + 1) (by omega)
      have e1 : i + 1 - (k + 1) = i - k := by omega
      rw [e1] at h2
      have e2 : i + 1 + (c0 :: r).length = i + 1 + 1 + r.length := by
        simp [List.length_cons]; omega
      rw [e2, h2]
      rw [List.replicate_succ' (k + 1) c0, List.append_assoc]
      rfl
    · rw [encodeRuns_cons_ne _ _ (by simpa using hc)]
      have h2 := ih d (i + 1) 0 (Nat.zero_le _)
      simp only [Nat.sub_zero, List.replicate_one, List.singleton_append] at h2
      have e2 : i + 1 + (d :: r).length = i + 1 + 1 + r.length := by
        simp [List.length_cons]; omega
      rw [e2]
      simp only [List.cons_append, pairConsec_cons_cons, expandRuns_cons]
      simp only [List.cons_append] at h2
      rw [h2]
      have e3 : i + 1 - (i - k) = k + 1 := by omega
      rw [e3]
      simp

/-- Decoding the encoded representation of `s` yields `s`. -/
theorem expand_encode (s : List Char) :
    expandRuns (encodePos s) (encodeChars s) = s := by
  cases s with
  | nil => rfl
  | cons c r =>
    unfold encodePos encodeChars encodeBounds
    rw [encodeRuns_cons_ne _ _ (by simp)]
    have h := expand_encodeRuns r c 0 0 (Nat.le_refl 0)
    simp only [Nat.sub_zero, List.replicate_one, List.singleton_append] at h
    simpa [List.length_cons, Nat.add_comm] using h

/-- Inversion of a successful construction: the fields of the resulting
marker. -/
theorem mkMarker_ok_inv {nm : String} {cd : List (Char × String)}
    {s : List Char} {m : Marker} (h : mkMarker nm cd s = Except.ok m) :
    m.name = nm ∧ m.char_description = cd ∧
      m.pos_list = encodePos s ∧ m.char_list = encodeChars s := by
  unfold mkMarker at h
  cases hcs : check_sequence (encodeChars s) (cd.map Prod.fst) with
  | error e => rw [hcs] at h; exact absurd h (by simp)
  | ok u => rw [hcs] at h
            simp only [Except.ok.injEq] at h
            subst h
            exact ⟨rfl, rfl, rfl, rfl⟩

/-- C2: for every string over a valid alphabet, the decoded sequence of the
constructed marker is the original string. -/
theorem decode_encode_roundtrip (nm : String) (cd : List (Char × String))
    (s : List Char) (m : Marker) (h : mkMarker nm cd s = Except.ok m) :
    m.sequence = s := by
  obtain ⟨-, -, hp, hc⟩ := mkMarker_ok_inv h
  unfold Marker.sequence
  rw [hp, hc]
  exact expand_encode s

/-- C2 witness: the round trip at the concrete marker of the test suite. -/
theorem decode_encode_roundtrip_witness :
    ∃ m, mkMarker "test" [('O', "keep"), ('X', "remove")]
        ("OOOXOOOOOOXXXOO".toList) = Except.ok m ∧
      m.sequence = "OOOXOOOOOOXXXOO".toList := by
  refine ⟨_, rfl, ?_⟩
  exact decode_encode_roundtrip "test" [('O', "keep"), ('X', "remove")] _ _ rfl

/-! ### Coordinate queries against the original marker string -/

/-- Whether the character at position `j` of the marker string `s` passes the
test `p`; out-of-range positions fail. -/
def charMatches (p : Char → Bool) (s : List Char) (j : Nat) : Bool :=
  (s[j]?.map p).getD false

theorem charMatches_cons_zero (p : Char → Bool) (d : Char) (r : List Char) :
    charMatches p (d :: r) 0 = p d := by
  simp [charMatches]

theorem charMatches_cons_succ (p : Char → Bool) (d : Char) (r : List Char)
    (t : Nat) : charMatches p (d :: r) (t + 1) = charMatches p r t := by
  simp [charMatches]

theorem coordsRuns_cons (p : Char → Bool) (a b : Nat) (c : Char)
    (pl : List (Nat × Nat)) (cl : List Char) :
    coordsRuns p ((a, b) :: pl) (c :: cl) =
      (if p c then List.range' a (b - a) else []) ++ coordsRuns p pl cl := by
  simp [coordsRuns]

/-- Generalized coordinate lemma, mirroring `expand_encodeRuns`: the
positions collected over the encoded runs are exactly the positions of the
pending run plus remaining input whose character passes `p`. -/
theorem coords_encodeRuns (s : List Char) :
    ∀ (p : Char → Bool) (c0 : Char) (i k : Nat), k ≤ i →
      coordsRuns p
        (pairConsec (((i - k) :: (encodeRuns (some c0) (i + 1) s).1)
          ++ [i + 1 + s.length]))
        (c0 :: (encodeRuns (some c0) (i + 1) s).2)
      = (List.range' (i - k) (k + 1 + s.length)).filter
          (fun j => if j < i + 1 then p c0 else charMatches p s (j - (i + 1))) := by
  induction s with
  | nil =>
    intro p c0 i k hk
    have e1 : i + 1 - (i - k) = k + 1 := by omega
    simp only [encodeRuns_nil, List.length_nil, Nat.add_zero, List.nil_append,
      List.cons_append, pairConsec, coordsRuns_cons, coordsRuns, List.zip_nil_right,
      List.flatMap_nil, List.append_nil, e1]
    have hmem : ∀ j ∈ List.range' (i - k) (k + 1),
        (if j < i + 1 then p c0 else charMatches p [] (j - (i + 1))) = p c0 := by
      intro j hj
      have hj' := List.mem_range'_1.mp hj
      simp [show j < i + 1 by omega]
    rw [List.filter_congr hmem]
    cases hp : p c0 <;> simp [hp, e1]
  | cons d r ih =>
    intro p c0 i k hk
    by_cases hc : c0 = d
    · subst hc
      rw [encodeRuns_cons_eq _ _ rfl]
      have h2 := ih p c0 (i + 1) (k + 1) (by omega)
      have e1 : i + 1 - (k + 1) = i - k := by omega
      rw [e1] at h2
      have e2 : i + 1 + (c0 :: r).length = i + 1 + 1 + r.length := by
        simp [List.length_cons]; omega
      rw [e2, h2]
      have e4 : k + 1 + (c0 :: r).length = k + 1 + 1 + r.length := by
        simp [List.length_cons]; omega
      rw [e4]
      apply List.filter_congr
      intro j hj
      have hj' := List.mem_range'_1.mp hj
      by_cases h1 : j < i + 1
      · simp [h1, show j < i + 1 + 1 by omega]
      · by_cases h0 : j < i + 1 + 1
        · have hj1 : j = i + 1 := by omega
          subst hj1
          simp [h0, h1, Nat.sub_self, charMatches_cons_zero]
        · have e5 : j - (i + 1) = (j - (i + 1 + 1)) + 1 := by omega
          simp only [h0, h1, if_neg, if_false]
          rw [e5, charMatches_cons_succ]
    · rw [encodeRuns_cons_ne _ _ (by simpa using hc)]
      simp only [List.cons_append, pairConsec_cons_cons, coordsRuns_cons]
      have h2 := ih p d (i + 1) 0 (Nat.zero_le _)
      simp only [Nat.sub_zero, List.cons_append] at h2
      have e0 : i + 1 + (d :: r).length = i + 1 + 1 + r.length := by
        simp [List.length_cons]; omega
      rw [e0, h2]
      have e1 : i + 1 - (i - k) = k + 1 := by omega
      rw [e1]
      have e2 : k + 1 + (d :: r).length = 0 + 1 + r.length + (k + 1) := by
        simp [List.length_cons]; omega
      rw [e2]
      rw [← List.range'_append_1 (i - k) (k + 1) (0 + 1 + r.length)]
      have e3 : i - k + (k + 1) = i + 1 := by omega
      rw [e3, List.filter_append]
      congr 1
      · have hmem : ∀ j ∈ List.range' (i - k) (k + 1),
            (if j < i + 1 then p c0
             else charMatches p (d :: r) (j - (i + 1))) = p c0 := by
          intro j hj
          have hj' := List.mem_range'_1.mp hj
          simp [show j < i + 1 by omega]
        rw [List.filter_congr hmem]
        cases hp : p c0 <;> simp [hp]
      · apply List.filter_congr
        intro j hj
        have hj' := List.mem_range'_1.mp hj
        by_cases h0 : j < i + 1 + 1
        · have hj1 : j = i + 1 := by omega
          subst hj1
          simp [h0, Nat.sub_self, charMatches_cons_zero]
        · have h1 : ¬ j < i + 1 := by omega
          have e5 : j - (i + 1) = (j - (i + 1 + 1)) + 1 := by omega
          simp only [h0, h1, if_neg, if_false]
          rw [e5, charMatches_cons_succ]

/-- The coordinates collected over the encoded form of `s` with run test `p`
are exactly the positions of `s` whose character passes `p`, in ascending
order. -/
theorem coords_encode (s : List Char) (p : Char → Bool) :
    coordsRuns p (encodePos s) (encodeChars s)
      = (List.range s.length).filter (charMatches p s) := by
  cases s with
  | nil => rfl
  | cons c r =>
    unfold encodePos encodeChars encodeBounds
    rw [encodeRuns_cons_ne _ _ (by simp)]
    have h := coords_encodeRuns r p c 0 0 (Nat.le_refl 0)
    simp only [Nat.sub_zero] at h
    rw [List.range_eq_range']
    have e : (c :: r).length = 0 + 1 + r.length := by
      simp [List.length_cons]; omega
    rw [e, h]
    apply List.filter_congr
    intro j hj
    by_cases h0 : j < 0 + 1
    · have hj0 : j = 0 := by omega
      subst hj0
      simp [charMatches_cons_zero]
    · have e5 : j = (j - (0 + 1)) + 1 := by omega
      simp only [h0, if_neg, if_false]
      rw [show charMatches p (c :: r) j
            = charMatches p (c :: r) ((j - (0 + 1)) + 1) by rw [← e5],
        charMatches_cons_succ]

/-! ### Structural invariants of the encoded form -/

theorem encodeRuns_length (s : List Char) :
    ∀ (last : Option Char) (i : Nat),
      (encodeRuns last i s).1.length = (encodeRuns last i s).2.length := by
  induction s with
  | nil => intro last i; rfl
  | cons d r ih =>
    intro last i
    by_cases h : last = some d
    · rw [encodeRuns_cons_eq _ _ h]; exact ih _ _
    · rw [encodeRuns_cons_ne _ _ h]; simp [ih]

theorem pairConsec_length_append (x : Nat) (l : List Nat) :
    (pairConsec (l ++ [x])).length = l.length := by
  induction l with
  | nil => rfl
  | cons a l ih =>
    cases l with
    | nil => rfl
    | cons b l' =>
      simp only [List.cons_append, pairConsec_cons_cons, List.length_cons]
      simp only [List.cons_append] at ih
      rw [ih]
      simp

theorem pairConsec_chain (l : List Nat) :
    List.Chain' (fun p q : Nat × Nat => p.2 = q.1) (pairConsec l) := by
  induction l with
  | nil => exact List.chain'_nil
  | cons a l ih =>
    cases l with
    | nil => exact List.chain'_nil
    | cons b l' =>
      rw [pairConsec_cons_cons]
      refine List.chain'_cons'.mpr ⟨?_, ih⟩
      intro y hy
      cases l' with
      | nil => simp [pairConsec] at hy
      | cons c l'' =>
        rw [pairConsec_cons_cons, List.head?_cons, Option.mem_def,
          Option.some.injEq] at hy
        rw [← hy]

theorem pairConsec_lt (l : List Nat) :
    List.Chain' (· < ·) l → ∀ p ∈ pairConsec l, p.1 < p.2 := by
  induction l with
  | nil => intro _ p hp; simp [pairConsec] at hp
  | cons a l ih =>
    intro h p hp
    cases l with
    | nil => simp [pairConsec] at hp
    | cons b l' =>
      rw [pairConsec_cons_cons] at hp
      rcases List.mem_cons.mp hp with h1 | h1
      · subst h1; exact (List.chain'_cons.mp h).1
      · exact ih (List.chain'_cons.mp h).2 p h1

/-- The boundary list produced by the encoder is strictly increasing. -/
theorem encodeRuns_bounds_chain (s : List Char) :
    ∀ (c0 : Char) (i k : Nat), k ≤ i →
      List.Chain' (· < ·)
        (((i - k) :: (encodeRuns (some c0) (i + 1) s).1)
          ++ [i + 1 + s.length]) := by
  induction s with
  | nil =>
    intro c0 i k hk
    simp only [encodeRuns_nil, List.length_nil, Nat.add_zero, List.nil_append,
      List.cons_append]
    exact List.chain'_cons.mpr ⟨by omega, List.chain'_singleton _⟩
  | cons d r ih =>
    intro c0 i k hk
    by_cases hc : c0 = d
    · subst hc
      rw [encodeRuns_cons_eq _ _ rfl]
      have h2 := ih c0 (i + 1) (k + 1) (by omega)
      have e1 : i + 1 - (k + 1) = i - k := by omega
      rw [e1] at h2
      have e2 : i + 1 + (c0 :: r).length = i + 1 + 1 + r.length := by
        simp [List.length_cons]; omega
      rw [e2]
      exact h2
    · rw [encodeRuns_cons_ne _ _ (by simpa using hc)]
      have h2 := ih d (i + 1) 0 (Nat.zero_le _)
      simp only [Nat.sub_zero, List.cons_append] at h2
      have e2 : i + 1 + (d :: r).length = i + 1 + 1 + r.length := by
        simp [List.length_cons]; omega
      rw [e2]
      simp only [List.cons_append]
      refine List.chain'_cons'.mpr ⟨?_, h2⟩
      intro y hy
      rw [List.head?_cons, Option.mem_def, Option.some.injEq] at hy
      omega

theorem getLast?_cons_ne_nil {α : Type} (y : α) {L : List α} (h : L ≠ []) :
    (y :: L).getLast? = L.getLast? := by
  cases L with
  | nil => exact absurd rfl h
  | cons z L' => rw [List.getLast?_cons_cons]

theorem pairConsec_getLast_append (x : Nat) (l : List Nat) :
    ∀ a : Nat, ∃ q : Nat,
      (pairConsec ((a :: l) ++ [x])).getLast? = some (q, x) := by
  induction l with
  | nil => intro a; exact ⟨a, rfl⟩
  | cons b l' ih =>
    intro a
    obtain ⟨q, hq⟩ := ih b
    refine ⟨q, ?_⟩
    simp only [List.cons_append, pairConsec_cons_cons]
    rw [getLast?_cons_ne_nil]
    · simpa using hq
    · intro hnil
      simp only [List.cons_append] at hq
      rw [hnil] at hq
      exact absurd hq (by simp)

theorem pairConsec_head_append (a x : Nat) (l : List Nat) :
    ∀ p : Nat × Nat,
      (pairConsec ((a :: l) ++ [x])).head? = some p → p.1 = a := by
  cases l with
  | nil =>
    intro p hp
    have h0 : (pairConsec ((a :: ([] : List Nat)) ++ [x])).head?
        = some (a, x) := rfl
    rw [h0] at hp
    rw [← Option.some.inj hp]
  | cons b l' =>
    intro p hp
    rw [List.cons_append, List.cons_append, pairConsec_cons_cons,
      List.head?_cons] at hp
    rw [← Option.some.inj hp]

/-- Adjacent run characters always differ, and the head run character differs
from the pending character. -/
theorem encodeRuns_chars_chain (s : List Char) :
    ∀ (last : Option Char) (i : Nat),
      List.Chain' (fun a b : Char => a ≠ b) (encodeRuns last i s).2 ∧
      (∀ c d : Char, last = some c →
        ((encodeRuns last i s).2).head? = some d → c ≠ d) := by
  induction s with
  | nil =>
    intro last i
    exact ⟨List.chain'_nil, by intro c d _ h; simp [encodeRuns] at h⟩
  | cons e r ih =>
    intro last i
    by_cases h : last = some e
    · rw [encodeRuns_cons_eq _ _ h]
      refine ⟨(ih (some e) (i + 1)).1, ?_⟩
      intro c d hc hd
      have he : c = e := by rw [h] at hc; exact (Option.some.inj hc).symm
      subst he
      exact (ih (some c) (i + 1)).2 c d rfl hd
    · rw [encodeRuns_cons_ne _ _ h]
      constructor
      · refine List.chain'_cons'.mpr ⟨?_, (ih (some e) (i + 1)).1⟩
        intro y hy
        exact (ih (some e) (i + 1)).2 e y rfl hy
      · intro c d hc hd
        simp only [List.head?_cons, Option.some.injEq] at hd
        subst hd
        intro hcd
        subst hcd
        exact h hc

/-- Every run character occurs in the input string. -/
theorem encodeRuns_chars_subset (s : List Char) :
    ∀ (last : Option Char) (i : Nat) (c : Char),
      c ∈ (encodeRuns last i s).2 → c ∈ s := by
  induction s with
  | nil => intro last i c h; exact absurd h (by simp [encodeRuns])
  | cons d r ih =>
    intro last i c h
    by_cases hl : last = some d
    · rw [encodeRuns_cons_eq _ _ hl] at h
      exact List.mem_cons_of_mem _ (ih _ _ _ h)
    · rw [encodeRuns_cons_ne _ _ hl] at h
      rcases List.mem_cons.mp h with h1 | h1
      · subst h1; exact List.mem_cons_self _ _
      · exact List.mem_cons_of_mem _ (ih _ _ _ h1)

/-- Every input character occurs among the run characters, unless it is the
pending character. -/
theorem encodeRuns_chars_cover (s : List Char) :
    ∀ (last : Option Char) (i : Nat) (c : Char),
      c ∈ s → c ∈ (encodeRuns last i s).2 ∨ last = some c := by
  induction s with
  | nil => intro last i c h; exact absurd h (by simp)
  | cons d r ih =>
    intro last i c h
    by_cases hl : last = some d
    · rw [encodeRuns_cons_eq _ _ hl]
      rcases List.mem_cons.mp h with h1 | h1
      · subst h1; right; exact hl
      · rcases ih (some d) (i + 1) c h1 with h2 | h2
        · left; exact h2
        · simp only [Option.some.injEq] at h2
          subst h2; right; exact hl
    · rw [encodeRuns_cons_ne _ _ hl]
      rcases List.mem_cons.mp h with h1 | h1
      · subst h1; left; exact List.mem_cons_self _ _
      · rcases ih (some d) (i + 1) c h1 with h2 | h2
        · left; exact List.mem_cons_of_mem _ h2
        · simp only [Option.some.injEq] at h2
          subst h2; left; exact List.mem_cons_self _ _

/-! ### Bridge lemmas at the Marker level -/

theorem encodeChars_mem (s : List Char) (c : Char) :
    c ∈ encodeChars s ↔ c ∈ s := by
  constructor
  · exact encodeRuns_chars_subset s none 0 c
  · intro h
    rcases encodeRuns_chars_cover s none 0 c h with h1 | h1
    · exact h1
    · exact absurd h1 (by simp)

theorem check_sequence_ok_iff (cl allowed : List Char) :
    check_sequence cl allowed = Except.ok ()
      ↔ ∀ c ∈ cl, allowed.contains c = true := by
  unfold check_sequence
  cases hf : cl.find? (fun c => ! allowed.contains c) with
  | none =>
    simp only [List.find?_eq_none, Bool.not_eq_true'] at hf
    simp only [true_iff]
    intro c hc
    have := hf c hc
    simpa using this
  | some c =>
    simp only [iff_false, false_iff]
    constructor
    · intro h; exact absurd h (by simp)
    · intro h
      have h1 := List.find?_some hf
      have h2 := List.mem_of_find?_eq_some hf
      rw [h c h2] at h1
      simp at h1

theorem mkMarker_isOk_iff (nm : String) (cd : List (Char × String))
    (s : List Char) :
    (mkMarker nm cd s).isOk = true
      ↔ ∀ c ∈ s, (cd.map Prod.fst).contains c = true := by
  unfold mkMarker
  cases hcs : check_sequence (encodeChars s) (cd.map Prod.fst) with
  | error e =>
    simp only [Except.isOk, Except.toBool]
    constructor
    · intro h; exact absurd h (by simp)
    · intro h
      have : check_sequence (encodeChars s) (cd.map Prod.fst)
          = Except.ok () := by
        rw [check_sequence_ok_iff]
        intro c hc
        exact h c ((encodeChars_mem s c).mp hc)
      rw [this] at hcs
      exact absurd hcs (by simp)
  | ok u =>
    cases u
    simp only [Except.isOk, Except.toBool, true_iff]
    intro c hc
    exact (check_sequence_ok_iff _ _).mp hcs c ((encodeChars_mem s c).mpr hc)

theorem mkMarker_error_msg (nm : String) (cd : List (Char × String))
    (s : List Char) (e : String) (h : mkMarker nm cd s = Except.error e) :
    ∃ c, c ∈ s ∧ (cd.map Prod.fst).contains c = false ∧
      e = allowedMessage c (cd.map Prod.fst) := by
  unfold mkMarker at h
  cases hcs : check_sequence (encodeChars s) (cd.map Prod.fst) with
  | ok u => rw [hcs] at h; exact absurd h (by simp)
  | error e' =>
    rw [hcs] at h
    simp only [Except.error.injEq] at h
    subst h
    unfold check_sequence at hcs
    cases hf : (encodeChars s).find? (fun c => ! (cd.map Prod.fst).contains c) with
    | none => rw [hf] at hcs; exact absurd hcs (by simp)
    | some c =>
      rw [hf] at hcs
      simp only [Except.error.injEq] at hcs
      have h1 := List.find?_some hf
      have h2 := List.mem_of_find?_eq_some hf
      refine ⟨c, (encodeChars_mem s c).mp h2, ?_, hcs.symm⟩
      simpa using h1

theorem marker_len_of_ne_nil {nm : String} {cd : List (Char × String)}
    {s : List Char} {m : Marker} (h : mkMarker nm cd s = Except.ok m)
    (hne : s ≠ []) : m.len = some s.length := by
  obtain ⟨-, -, hp, -⟩ := mkMarker_ok_inv h
  cases s with
  | nil => exact absurd rfl hne
  | cons c r =>
    unfold Marker.len
    rw [hp]
    unfold encodePos encodeBounds
    rw [encodeRuns_cons_ne _ _ (by simp)]
    obtain ⟨q, hq⟩ := pairConsec_getLast_append (c :: r).length
      (encodeRuns (some c) (0 + 1) r).1 0
    rw [hq]
    rfl

theorem marker_len_of_nil {nm : String} {cd : List (Char × String)}
    {m : Marker} (h : mkMarker nm cd [] = Except.ok m) : m.len = none := by
  obtain ⟨-, -, hp, -⟩ := mkMarker_ok_inv h
  unfold Marker.len
  rw [hp]
  rfl

/-- `sorted(set(l))` is the canonical ascending listing of any set of
positions: it equals `(range n).filter q` whenever membership agrees. -/
theorem sortedSet_eq_filter_range (l : List Nat) (n : Nat) (q : Nat → Bool)
    (h : ∀ j, j ∈ l ↔ j ∈ (List.range n).filter q) :
    sortedSet l = (List.range n).filter q := by
  have ndR : ((List.range n).filter q).Nodup := (List.nodup_range n).filter _
  have ndL : (sortedSet l).Nodup :=
    (List.perm_insertionSort _ _).nodup_iff.mpr (List.nodup_dedup l)
  have sortedL : List.Sorted (· ≤ ·) (sortedSet l) :=
    List.sorted_insertionSort _ _
  have sortedR : List.Sorted (· ≤ ·) ((List.range n).filter q) :=
    ((List.sorted_lt_range n).filter _).imp Nat.le_of_lt
  refine List.eq_of_perm_of_sorted ?_ sortedL sortedR
  refine (List.perm_ext_iff_of_nodup ndL ndR).mpr ?_
  intro j
  rw [← h j]
  unfold sortedSet
  rw [List.mem_insertionSort, List.mem_dedup]

theorem coords_spec {nm : String} {cd : List (Char × String)} {s : List Char}
    {m : Marker} (h : mkMarker nm cd s = Except.ok m) (char : Char)
    (inverse : Bool) :
    m.coords char inverse
      = (List.range s.length).filter (charMatches (coordsPred char inverse) s) := by
  obtain ⟨-, -, hp, hc⟩ := mkMarker_ok_inv h
  unfold Marker.coords
  rw [hp, hc]
  exact coords_encode s _

theorem filterCoords_spec {nm : String} {cd : List (Char × String)}
    {s : List Char} {m : Marker} (h : mkMarker nm cd s = Except.ok m)
    (hne : s ≠ []) (sequence : List Char) (exclude_chars : List Char)
    (inverse : Bool) (hlen : sequence.length = s.length) :
    m.filterCoords sequence exclude_chars inverse
      = Except.ok ((List.range s.length).filter
          (fun j => exclude_chars.any
            (fun c => charMatches (coordsPred c (! inverse)) s j))) := by
  unfold Marker.filterCoords
  rw [marker_len_of_ne_nil h hne]
  show (if sequence.length = s.length then
      Except.ok (sortedSet (exclude_chars.flatMap fun c => m.coords c (! inverse)))
    else Except.error assertError) = _
  rw [if_pos hlen]
  congr 1
  apply sortedSet_eq_filter_range
  intro j
  rw [List.mem_flatMap]
  constructor
  · rintro ⟨c, hcE, hj⟩
    rw [coords_spec h c (! inverse)] at hj
    rw [List.mem_filter] at hj ⊢
    refine ⟨hj.1, ?_⟩
    rw [List.any_eq_true]
    exact ⟨c, hcE, hj.2⟩
  · intro hj
    rw [List.mem_filter, List.any_eq_true] at hj
    obtain ⟨hjr, c, hcE, hcm⟩ := hj
    refine ⟨c, hcE, ?_⟩
    rw [coords_spec h c (! inverse), List.mem_filter]
    exact ⟨hjr, hcm⟩

/-- Setting each listed index of `xs` to `a` updates exactly those positions
that are in the list and in range. -/
theorem foldl_set_getElem? {α : Type} (L : List Nat) (a : α) :
    ∀ (xs : List α) (j : Nat),
      (L.foldl (fun arr i => arr.set i a) xs)[j]? =
        if j ∈ L ∧ j < xs.length then some a else xs[j]? := by
  induction L with
  | nil => intro xs j; simp
  | cons i L ih =>
    intro xs j
    simp only [List.foldl_cons]
    rw [ih (xs.set i a) j]
    simp only [List.length_set]
    by_cases hL : j ∈ L
    · by_cases hj : j < xs.length
      · simp [hL, hj, List.mem_cons]
      · have hx : xs[j]? = none := List.getElem?_eq_none (by omega)
        have hx2 : (xs.set i a)[j]? = none :=
          List.getElem?_eq_none (by simp only [List.length_set]; omega)
        simp [hj, hx, hx2]
    · by_cases hij : i = j
      · subst hij
        by_cases hj : i < xs.length
        · simp [hL, hj, List.getElem?_set]
        · have hx : xs[i]? = none := List.getElem?_eq_none (by omega)
          simp [hL, hj, List.getElem?_set, hx]
      · have hji : ¬ j = i := fun hh => hij hh.symm
        simp [hL, hji, List.getElem?_set_ne hij]

/-! ### Readable characterizations of the run tests -/

theorem charMatches_eq_iff (c : Char) (s : List Char) (j : Nat) :
    charMatches (coordsPred c false) s j = true ↔ s[j]? = some c := by
  cases hj : s[j]? with
  | none => simp [charMatches, hj]
  | some d =>
    simp [charMatches, hj, coordsPred, beq_iff_eq]
    exact eq_comm

theorem charMatches_ne_iff (c : Char) (s : List Char) (j : Nat) :
    charMatches (coordsPred c true) s j = true
      ↔ (j < s.length ∧ ¬ s[j]? = some c) := by
  cases hj : s[j]? with
  | none =>
    have hlen := List.getElem?_eq_none_iff.mp hj
    simp [charMatches, hj]
    omega
  | some d =>
    have hlt : j < s.length := by
      by_contra hge
      rw [List.getElem?_eq_none_iff.mpr (by omega)] at hj
      exact absurd hj (by simp)
    simp [charMatches, hj, coordsPred, bne_iff_ne, hlt]
    exact ne_comm

theorem bool_eq_decide {p : Prop} [Decidable p] {b : Bool}
    (h : b = true ↔ p) : b = decide p := by
  cases hb : b
  · have hnp : ¬ p := fun hp => absurd (h.mpr hp) (by simp [hb])
    exact (decide_eq_false hnp).symm
  · exact (decide_eq_true (h.mp hb)).symm

theorem filter_range_charMatches_eq (c : Char) (s : List Char) :
    (List.range s.length).filter (charMatches (coordsPred c false) s)
      = (List.range s.length).filter (fun j => decide (s[j]? = some c)) := by
  apply List.filter_congr
  intro j hj
  exact bool_eq_decide (charMatches_eq_iff c s j)

theorem filter_range_charMatches_ne (c : Char) (s : List Char) :
    (List.range s.length).filter (charMatches (coordsPred c true) s)
      = (List.range s.length).filter (fun j => decide (¬ s[j]? = some c)) := by
  apply List.filter_congr
  intro j hj
  have hlt := List.mem_range.mp hj
  refine bool_eq_decide ?_
  rw [charMatches_ne_iff]
  constructor
  · intro hh; exact hh.2
  · intro hh; exact ⟨hlt, hh⟩

/-! ### Claim C4: invariants of the encoded form -/

/-- C4: after construction from a valid marker string of length `N`, the
interval and character lists have equal length, the intervals partition
`[0, N)` contiguously (each interval ends where the next begins, nonempty,
first starts at `0`, last ends at `N`), and no two adjacent intervals carry
the same character. -/
theorem encoded_form_invariants (nm : String) (cd : List (Char × String))
    (s : List Char) (m : Marker) (h : mkMarker nm cd s = Except.ok m) :
    m.pos_list.length = m.char_list.length ∧
    List.Chain' (fun p q : Nat × Nat => p.2 = q.1) m.pos_list ∧
    (∀ p : Nat × Nat, m.pos_list.head? = some p → p.1 = 0) ∧
    (∀ p : Nat × Nat, m.pos_list.getLast? = some p → p.2 = s.length) ∧
    (∀ p ∈ m.pos_list, p.1 < p.2) ∧
    List.Chain' (fun a b : Char => a ≠ b) m.char_list := by
  obtain ⟨-, -, hp, hc⟩ := mkMarker_ok_inv h
  rw [hp, hc]
  refine ⟨?_, ?_, ?_, ?_, ?_, ?_⟩
  · unfold encodePos encodeBounds encodeChars
    rw [pairConsec_length_append]
    exact encodeRuns_length s none 0
  · exact pairConsec_chain _
  · intro p hhead
    cases s with
    | nil => exact absurd hhead (by simp [encodePos, encodeBounds, pairConsec])
    | cons c r =>
      unfold encodePos encodeBounds at hhead
      rw [encodeRuns_cons_ne _ _ (by simp)] at hhead
      exact pairConsec_head_append 0 (c :: r).length _ p hhead
  · intro p hlast
    cases s with
    | nil => exact absurd hlast (by simp [encodePos, encodeBounds, pairConsec])
    | cons c r =>
      unfold encodePos encodeBounds at hlast
      rw [encodeRuns_cons_ne _ _ (by simp)] at hlast
      obtain ⟨q, hq⟩ := pairConsec_getLast_append (c :: r).length
        (encodeRuns (some c) (0 + 1) r).1 0
      rw [hq] at hlast
      rw [← Option.some.inj hlast]
  · intro p hmem
    cases s with
    | nil => exact absurd hmem (by simp [encodePos, encodeBounds, pairConsec])
    | cons c r =>
      unfold encodePos encodeBounds at hmem
      rw [encodeRuns_cons_ne _ _ (by simp)] at hmem
      refine pairConsec_lt _ ?_ p hmem
      have hch := encodeRuns_bounds_chain r c 0 0 (Nat.le_refl 0)
      simp only [Nat.sub_zero] at hch
      have e : 0 + 1 + r.length = (c :: r).length := by
        simp [List.length_cons]; omega
      rw [e] at hch
      exact hch
  · exact (encodeRuns_chars_chain s none 0).1

/-- C4 witness: the invariants at the concrete marker of the test suite. -/
theorem encoded_form_invariants_witness :
    ∃ m, mkMarker "test" [('O', "keep"), ('X', "remove")]
        ("OOOXOOOOOOXXXOO".toList) = Except.ok m ∧
      m.pos_list.length = m.char_list.length := by
  obtain ⟨h1, -⟩ := encoded_form_invariants "test"
    [('O', "keep"), ('X', "remove")] ("OOOXOOOOOOXXXOO".toList) _ rfl
  exact ⟨_, rfl, h1⟩

/-! ### Claim C5: construction domain and length -/

/-- C5 counterexample: construction accepts the empty marker string, but
`len(marker)` then fails (`_pos_list[-1]` raises `IndexError`, modelled as
`none`) instead of returning `N = 0`. -/
theorem len_empty_marker_counterexample :
    Except.map Marker.len (mkMarker "n" [('O', "x")] []) = Except.ok none ∧
      (none : Option Nat) ≠ some 0 := by
  exact ⟨rfl, by simp⟩

/-- C5 (amended): construction accepts any marker string over the alphabet,
including the empty string; `len(marker)` returns `N` for every nonempty
marker, while on the empty marker the last-interval access fails. -/
theorem construction_accepts_and_len (nm : String)
    (cd : List (Char × String)) (s : List Char)
    (hall : ∀ c ∈ s, (cd.map Prod.fst).contains c = true) :
    ∃ m, mkMarker nm cd s = Except.ok m ∧
      (s ≠ [] → m.len = some s.length) ∧ (s = [] → m.len = none) := by
  have hok : (mkMarker nm cd s).isOk = true :=
    (mkMarker_isOk_iff nm cd s).mpr hall
  cases hm : mkMarker nm cd s with
  | error e => rw [hm] at hok; exact absurd hok (by simp [Except.isOk, Except.toBool])
  | ok m =>
    refine ⟨m, rfl, ?_, ?_⟩
    · intro hne; exact marker_len_of_ne_nil hm hne
    · intro hnil; subst hnil; exact marker_len_of_nil hm

/-- C5 witness: the amended claim at a concrete nonempty marker. -/
theorem construction_accepts_and_len_witness :
    ∃ m, mkMarker "n" [('O', "x")] ['O', 'O'] = Except.ok m ∧
      ((['O', 'O'] : List Char) ≠ [] →
        m.len = some (['O', 'O'] : List Char).length) ∧
      ((['O', 'O'] : List Char) = [] → m.len = none) :=
  construction_accepts_and_len "n" [('O', "x")] ['O', 'O'] (by decide)

/-! ### Claim C7: alphabet validation at construction -/

/-- C7: construction fails with a validation error exactly when some
character of the marker string is not a key of `char_description`; the error
message names the offending character and the allowed characters; in
particular `Marker('n', {'O': 'x'}, 'OOZ')` fails on `'Z'`. -/
theorem alphabet_validation :
    (∀ (nm : String) (cd : List (Char × String)) (s : List Char),
      ((mkMarker nm cd s).isOk = true
        ↔ ∀ c ∈ s, (cd.map Prod.fst).contains c = true) ∧
      (∀ e, mkMarker nm cd s = Except.error e →
        ∃ c, c ∈ s ∧ (cd.map Prod.fst).contains c = false ∧
          e = allowedMessage c (cd.map Prod.fst))) ∧
    mkMarker "n" [('O', "x")] ("OOZ".toList)
      = Except.error (allowedMessage 'Z' ['O']) := by
  refine ⟨fun nm cd s => ⟨mkMarker_isOk_iff nm cd s, ?_⟩, rfl⟩
  intro e he
  exact mkMarker_error_msg nm cd s e he

/-- C7 witness: the validation criterion applied at a concrete valid
marker. -/
theorem alphabet_validation_witness :
    (mkMarker "n" [('O', "x")] ("OO".toList)).isOk = true :=
  (alphabet_validation.1 "n" [('O', "x")] ("OO".toList)).1.mpr (by decide)

/-! ### Shared concrete data (from the reference test suite) -/

def testCd : List (Char × String) := [('O', "keep"), ('X', "remove")]

def testMarkerSeq : List Char := "OOOXOOOOOOXXXOO".toList

def testSeq : List Char := "ATTCAATATACCCAT".toList

/-! ### Claim C1: default filter semantics -/

/-- C1 counterexample: on the marker `'OX'`, the default call
`filter(seq, 'O', 'X')` returns the whole sequence `'AB'`; the claim says it
keeps only positions whose marker character is none of the excluded
characters, which would be the empty string. -/
theorem filter_multi_exclude_counterexample :
    Except.map (fun m => m.filterSeq ("AB".toList) ['O', 'X'] false)
      (mkMarker "n" [('O', "keep"), ('X', "remove")] ("OX".toList))
      = Except.ok (Except.ok ("AB".toList)) ∧
    "AB".toList ≠ ([] : List Char) := by
  exact ⟨rfl, by simp⟩

/-- C1 (amended): for markers built from a nonempty marker string, the
default filter keeps exactly the union over the excluded characters of the
positions whose marker character differs from that character (so a position
is removed only when its marker character equals every excluded character);
for a single excluded character `c` this removes exactly the positions where
the marker equals `c`. -/
theorem filter_default_semantics (nm : String) (cd : List (Char × String))
    (s : List Char) (m : Marker) (sequence exclude_chars : List Char)
    (h : mkMarker nm cd s = Except.ok m) (hne : s ≠ [])
    (hlen : sequence.length = s.length) :
    (∃ kept, m.filterCoords sequence exclude_chars false = Except.ok kept ∧
      m.filterSeq sequence exclude_chars false
        = Except.ok (kept.filterMap (fun i => sequence[i]?)) ∧
      (∀ j, j ∈ kept
        ↔ j < s.length ∧ ∃ c ∈ exclude_chars, ¬ s[j]? = some c)) ∧
    (∀ c : Char, m.filterSeq sequence [c] false
      = Except.ok (((List.range s.length).filter
          (fun j => decide (¬ s[j]? = some c))).filterMap
          (fun i => sequence[i]?))) := by
  constructor
  · refine ⟨_, filterCoords_spec h hne sequence exclude_chars false hlen,
      ?_, ?_⟩
    · unfold Marker.filterSeq
      rw [filterCoords_spec h hne sequence exclude_chars false hlen]
      rfl
    · intro j
      rw [List.mem_filter, List.mem_range, List.any_eq_true]
      constructor
      · rintro ⟨hjr, c, hcE, hcm⟩
        exact ⟨hjr, c, hcE, ((charMatches_ne_iff c s j).mp hcm).2⟩
      · rintro ⟨hjr, c, hcE, hne'⟩
        exact ⟨hjr, c, hcE, (charMatches_ne_iff c s j).mpr ⟨hjr, hne'⟩⟩
  · intro c
    unfold Marker.filterSeq
    rw [filterCoords_spec h hne sequence [c] false hlen]
    have hfe : (List.range s.length).filter
        (fun j => ([c] : List Char).any
          (fun c' => charMatches (coordsPred c' (! false)) s j))
        = (List.range s.length).filter
            (fun j => decide (¬ s[j]? = some c)) := by
      rw [← filter_range_charMatches_ne c s]
      apply List.filter_congr
      intro j hj
      simp [List.any_cons, List.any_nil]
    rw [hfe]
    rfl

/-- C1 witness: the amended filter semantics at the concrete test marker. -/
theorem filter_default_semantics_witness :
    ∃ m kept, mkMarker "test" testCd testMarkerSeq = Except.ok m ∧
      m.filterCoords testSeq ['X'] false = Except.ok kept := by
  obtain ⟨⟨kept, h1, -, -⟩, -⟩ := filter_default_semantics "test" testCd
    testMarkerSeq _ testSeq ['X'] rfl (by decide) (by decide)
  exact ⟨_, kept, rfl, h1⟩

/-! ### Claim C3: coords/filter consistency -/

/-- C3 counterexample: on the empty marker, `filter(seq, c,
output_coords=True)` raises (the length assertion evaluates `len(self)`,
which fails), while `coords(c, inverse=True)` returns `[]`; so the two are
not equal there, contrary to the claim's quantification over every marker. -/
theorem filter_coords_empty_marker_counterexample :
    Except.map (fun m => (m.filterCoords [] ['O'] false).isOk)
      (mkMarker "n" [('O', "x")] []) = Except.ok false ∧
    Except.map (fun m => m.coords 'O' true) (mkMarker "n" [('O', "x")] [])
      = Except.ok [] := by
  exact ⟨rfl, rfl⟩

/-- C3 (amended): for markers built from a nonempty marker string and a
sequence of matching length, `filter(seq, c, output_coords=True)` returns
exactly the ascending list of positions whose marker character is not `c`,
and this list equals `coords(c, inverse=True)`. -/
theorem filter_output_coords_eq_coords (nm : String)
    (cd : List (Char × String)) (s : List Char) (m : Marker) (c : Char)
    (sequence : List Char) (h : mkMarker nm cd s = Except.ok m)
    (hne : s ≠ []) (hlen : sequence.length = s.length) :
    m.filterCoords sequence [c] false = Except.ok (m.coords c true) ∧
    m.coords c true = (List.range s.length).filter
      (fun j => decide (¬ s[j]? = some c)) ∧
    List.Sorted (· < ·) (m.coords c true) := by
  have h2 : m.coords c true = (List.range s.length).filter
      (fun j => decide (¬ s[j]? = some c)) := by
    rw [coords_spec h c true]
    exact filter_range_charMatches_ne c s
  refine ⟨?_, h2, ?_⟩
  · rw [filterCoords_spec h hne sequence [c] false hlen]
    congr 1
    rw [h2, ← filter_range_charMatches_ne c s]
    apply List.filter_congr
    intro j hj
    simp [List.any_cons, List.any_nil]
  · rw [coords_spec h c true]
    exact (List.sorted_lt_range s.length).filter _

/-- C3 witness: coords/filter consistency at the concrete test marker. -/
theorem filter_output_coords_eq_coords_witness :
    ∃ m, mkMarker "test" testCd testMarkerSeq = Except.ok m ∧
      m.filterCoords testSeq ['X'] false = Except.ok (m.coords 'X' true) := by
  obtain ⟨h1, -, -⟩ := filter_output_coords_eq_coords "test" testCd
    testMarkerSeq _ 'X' testSeq rfl (by decide) (by decide)
  exact ⟨_, rfl, h1⟩

/-! ### Claim C6: mask semantics -/

theorem foldl_set_length {α : Type} (L : List Nat) (a : α) :
    ∀ xs : List α,
      (L.foldl (fun arr i => arr.set i a) xs).length = xs.length := by
  induction L with
  | nil => intro xs; rfl
  | cons i L ih =>
    intro xs
    simp only [List.foldl_cons]
    rw [ih]
    simp

/-- Closed form of `Marker.mask` on a nonempty marker with matching
length. -/
theorem mask_spec {nm : String} {cd : List (Char × String)} {s : List Char}
    {m : Marker} (h : mkMarker nm cd s = Except.ok m) (hne : s ≠ [])
    (sequence exclude_chars : List Char) (mask_char : Char)
    (hlen : sequence.length = s.length) :
    m.mask sequence exclude_chars mask_char = Except.ok
      (((List.range s.length).filter
        (fun j => exclude_chars.any
          (fun c => charMatches (coordsPred c false) s j))).foldl
        (fun arr i => arr.set i mask_char) sequence) := by
  unfold Marker.mask
  rw [marker_len_of_ne_nil h hne]
  show (if sequence.length = s.length then
      Except.ok
        ((sortedSet (exclude_chars.flatMap fun c => m.coords c false)).foldl
          (fun arr i => arr.set i mask_char) sequence)
    else Except.error assertError) = _
  rw [if_pos hlen]
  have hAB : sortedSet (exclude_chars.flatMap fun c => m.coords c false)
      = (List.range s.length).filter
          (fun j => exclude_chars.any
            (fun c => charMatches (coordsPred c false) s j)) := by
    apply sortedSet_eq_filter_range
    intro j
    rw [List.mem_flatMap]
    constructor
    · rintro ⟨c, hcE, hj⟩
      rw [coords_spec h c false, List.mem_filter] at hj
      rw [List.mem_filter]
      exact ⟨hj.1, List.any_eq_true.mpr ⟨c, hcE, hj.2⟩⟩
    · intro hj
      rw [List.mem_filter, List.any_eq_true] at hj
      obtain ⟨hjr, c, hcE, hcm⟩ := hj
      refine ⟨c, hcE, ?_⟩
      rw [coords_spec h c false, List.mem_filter]
      exact ⟨hjr, hcm⟩
  rw [hAB]

/-- C6 counterexample: on the empty marker, `mask` raises (via `len(self)`)
instead of returning a string of length `N = 0`. -/
theorem mask_empty_marker_counterexample :
    Except.map (fun m => m.mask [] ['O'] '_') (mkMarker "n" [('O', "x")] [])
      = Except.ok (Except.error lenError) ∧
    (Except.error lenError : Except String (List Char)) ≠ Except.ok [] := by
  exact ⟨rfl, by simp⟩

/-- C6 (amended): for markers built from a nonempty marker string and a
sequence of matching length `N`, `mask` replaces exactly the positions whose
marker character equals one of the given characters with `mask_char`, leaves
every other position unchanged, and returns a string of length exactly
`N`. -/
theorem mask_semantics (nm : String) (cd : List (Char × String))
    (s : List Char) (m : Marker) (sequence exclude_chars : List Char)
    (mask_char : Char) (h : mkMarker nm cd s = Except.ok m) (hne : s ≠ [])
    (hlen : sequence.length = s.length) :
    ∃ out : List Char,
      m.mask sequence exclude_chars mask_char = Except.ok out ∧
      out.length = sequence.length ∧
      (∀ j : Nat, out[j]? =
        if ∃ c ∈ exclude_chars, s[j]? = some c then some mask_char
        else sequence[j]?) := by
  refine ⟨_, mask_spec h hne sequence exclude_chars mask_char hlen,
    foldl_set_length _ _ _, ?_⟩
  intro j
  rw [foldl_set_getElem?]
  by_cases hex : ∃ c ∈ exclude_chars, s[j]? = some c
  · rw [if_pos hex]
    obtain ⟨c, hcE, hcs⟩ := hex
    have hjlt : j < s.length := by
      by_contra hge
      rw [List.getElem?_eq_none_iff.mpr (by omega)] at hcs
      exact absurd hcs (by simp)
    rw [if_pos ?_]
    constructor
    · rw [List.mem_filter]
      exact ⟨List.mem_range.mpr hjlt,
        List.any_eq_true.mpr ⟨c, hcE, (charMatches_eq_iff c s j).mpr hcs⟩⟩
    · omega
  · rw [if_neg hex, if_neg ?_]
    intro hcon
    obtain ⟨hmem, -⟩ := hcon
    rw [List.mem_filter, List.any_eq_true] at hmem
    obtain ⟨-, c, hcE, hcm⟩ := hmem
    exact hex ⟨c, hcE, (charMatches_eq_iff c s j).mp hcm⟩

/-- C6 witness: mask semantics at the concrete test marker. -/
theorem mask_semantics_witness :
    ∃ m out, mkMarker "test" testCd testMarkerSeq = Except.ok m ∧
      m.mask testSeq ['X'] '_' = Except.ok out ∧
      out.length = testSeq.length := by
  obtain ⟨out, h1, h2, -⟩ := mask_semantics "test" testCd testMarkerSeq _
    testSeq ['X'] '_' rfl (by decide) (by decide)
  exact ⟨_, out, rfl, h1, h2⟩

/-! ### Claim C8: length mismatch handling -/

theorem filterCoords_mismatch {nm : String} {cd : List (Char × String)}
    {s : List Char} {m : Marker} (h : mkMarker nm cd s = Except.ok m)
    (hne : s ≠ []) (sequence exclude_chars : List Char) (inverse : Bool)
    (hlen : ¬ sequence.length = s.length) :
    m.filterCoords sequence exclude_chars inverse
      = Except.error assertError := by
  unfold Marker.filterCoords
  rw [marker_len_of_ne_nil h hne]
  show (if sequence.length = s.length then
      Except.ok (sortedSet
        (exclude_chars.flatMap (fun c => m.coords c (! inverse))))
    else Except.error assertError) = _
  rw [if_neg hlen]

theorem mask_mismatch {nm : String} {cd : List (Char × String)}
    {s : List Char} {m : Marker} (h : mkMarker nm cd s = Except.ok m)
    (hne : s ≠ []) (sequence exclude_chars : List Char) (mask_char : Char)
    (hlen : ¬ sequence.length = s.length) :
    m.mask sequence exclude_chars mask_char = Except.error assertError := by
  unfold Marker.mask
  rw [marker_len_of_ne_nil h hne]
  show (if sequence.length = s.length then
      Except.ok
        ((sortedSet (exclude_chars.flatMap fun c => m.coords c false)).foldl
          (fun arr i => arr.set i mask_char) sequence)
    else Except.error assertError) = _
  rw [if_neg hlen]

/-- C8 counterexample: on the empty marker, `filter` and `mask` raise even
though the supplied sequence's length (0) equals the marker sequence's
length `N = 0`: the length check itself evaluates `len(self)`, which
raises. -/
theorem length_check_empty_marker_counterexample :
    Except.map (fun m => (m.filterSeq [] [] false).isOk)
      (mkMarker "n" [('O', "x")] []) = Except.ok false ∧
    Except.map (fun m => (m.mask [] [] '_').isOk)
      (mkMarker "n" [('O', "x")] []) = Except.ok false := by
  exact ⟨rfl, rfl⟩

/-- C8 (amended): for markers built from a nonempty marker string, `filter`
and `mask` succeed exactly when the supplied sequence's length equals the
marker's length `N`; on the empty marker they raise even when the lengths
are equal, because evaluating the marker's length itself raises. -/
theorem length_mismatch_raises (nm : String) (cd : List (Char × String))
    (s : List Char) (m : Marker) (sequence exclude_chars : List Char)
    (inverse : Bool) (mask_char : Char)
    (h : mkMarker nm cd s = Except.ok m) (hne : s ≠ []) :
    ((m.filterSeq sequence exclude_chars inverse).isOk = true
      ↔ sequence.length = s.length) ∧
    ((m.mask sequence exclude_chars mask_char).isOk = true
      ↔ sequence.length = s.length) := by
  by_cases hl : sequence.length = s.length
  · constructor
    · unfold Marker.filterSeq
      rw [filterCoords_spec h hne sequence exclude_chars inverse hl]
      simp [Except.map, Except.isOk, Except.toBool, hl]
    · obtain ⟨out, hout, -, -⟩ := mask_semantics nm cd s m sequence
        exclude_chars mask_char h hne hl
      rw [hout]
      simp [Except.isOk, Except.toBool, hl]
  · constructor
    · unfold Marker.filterSeq
      rw [filterCoords_mismatch h hne sequence exclude_chars inverse hl]
      simp [Except.map, Except.isOk, Except.toBool, hl]
    · rw [mask_mismatch h hne sequence exclude_chars mask_char hl]
      simp [Except.isOk, Except.toBool, hl]

/-- C8 witness: the success criterion at the concrete test marker, for a
matching and a non-matching sequence length. -/
theorem length_mismatch_raises_witness :
    ∃ m, mkMarker "test" testCd testMarkerSeq = Except.ok m ∧
      ((m.filterSeq testSeq ['X'] false).isOk = true
        ↔ testSeq.length = testMarkerSeq.length) ∧
      ((m.filterSeq ("AB".toList) ['X'] false).isOk = true
        ↔ ("AB".toList).length = testMarkerSeq.length) := by
  obtain ⟨h1, -⟩ := length_mismatch_raises "test" testCd testMarkerSeq _
    testSeq ['X'] false '_' rfl (by decide)
  obtain ⟨h2, -⟩ := length_mismatch_raises "test" testCd testMarkerSeq _
    ("AB".toList) ['X'] false '_' rfl (by decide)
  exact ⟨_, rfl, h1, h2⟩

/-! ### Claim C9: ConsAlignMarker site selection -/

/-- C9 counterexample: the empty ConsAlign marker is constructible, but
`consistent_sites` then raises instead of keeping the (empty) set of matching
positions. -/
theorem cons_align_empty_counterexample :
    Except.map (fun m => m.consistent_sites [] 'C') (mkConsAlignMarker [])
      = Except.ok (Except.error lenError) ∧
    (Except.error lenError : Except String (List Char)) ≠ Except.ok [] := by
  exact ⟨rfl, by simp⟩

/-- C9 (amended): for ConsAlign markers built from a nonempty marker string
and a sequence of matching length, `consistent_sites(seq, marker_char)`
keeps exactly the positions whose marker character equals `marker_char`, and
`inconsistent_sites(seq, marker_char)` does the same for its `marker_char`;
with the defaults `'C'` and `'N'` the two results are different and
complementary, as on the concrete reference data. -/
theorem cons_align_sites :
    (∀ (s : List Char) (m : Marker) (sequence : List Char) (mc : Char),
      mkConsAlignMarker s = Except.ok m → s ≠ [] →
      sequence.length = s.length →
      m.consistent_sites sequence mc
        = Except.ok (((List.range s.length).filter
            (fun j => decide (s[j]? = some mc))).filterMap
            (fun i => sequence[i]?)) ∧
      m.inconsistent_sites sequence mc
        = Except.ok (((List.range s.length).filter
            (fun j => decide (s[j]? = some mc))).filterMap
            (fun i => sequence[i]?))) ∧
    Except.map (fun m => m.consistent_sites testSeq 'C')
      (mkConsAlignMarker ("CCCNCCCCCCNNNCC".toList))
      = Except.ok (Except.ok ("ATTAATATAAT".toList)) ∧
    Except.map (fun m => m.inconsistent_sites testSeq 'N')
      (mkConsAlignMarker ("CCCNCCCCCCNNNCC".toList))
      = Except.ok (Except.ok ("CCCC".toList)) ∧
    "ATTAATATAAT".toList ≠ "CCCC".toList := by
  refine ⟨?_, rfl, rfl, by simp⟩
  intro s m sequence mc h hne hlen
  have h' : mkMarker "ConsAlign_marker_sequence" consAlignCharDescription s
      = Except.ok m := h
  have key : m.filterSeq sequence [mc] true
      = Except.ok (((List.range s.length).filter
          (fun j => decide (s[j]? = some mc))).filterMap
          (fun i => sequence[i]?)) := by
    unfold Marker.filterSeq
    rw [filterCoords_spec h' hne sequence [mc] true hlen]
    have hfe : (List.range s.length).filter
        (fun j => ([mc] : List Char).any
          (fun c' => charMatches (coordsPred c' (! true)) s j))
        = (List.range s.length).filter
            (fun j => decide (s[j]? = some mc)) := by
      rw [← filter_range_charMatches_eq mc s]
      apply List.filter_congr
      intro j hj
      simp [List.any_cons, List.any_nil]
    rw [hfe]
    rfl
  exact ⟨key, key⟩

/-- C9 witness: the general site-selection clause applied at the concrete
ConsAlign marker. -/
theorem cons_align_sites_witness :
    ∃ m, mkConsAlignMarker ("CCCNCCCCCCNNNCC".toList) = Except.ok m ∧
      m.consistent_sites testSeq 'C'
        = Except.ok (((List.range ("CCCNCCCCCCNNNCC".toList).length).filter
            (fun j => decide (("CCCNCCCCCCNNNCC".toList)[j]? = some 'C'))).filterMap
            (fun i => testSeq[i]?)) := by
  obtain ⟨h1, -⟩ := cons_align_sites.1 ("CCCNCCCCCCNNNCC".toList) _ testSeq
    'C' rfl (by decide) (by decide)
  exact ⟨_, rfl, h1⟩

/-! ### Claim C10: filter with no excluded characters -/

/-- C10 counterexample: on the empty marker (with the only sequence of
matching length, the empty one), `filter(sequence)` raises instead of
returning the empty result. -/
theorem filter_no_chars_empty_marker_counterexample :
    Except.map (fun m => m.filterSeq [] [] false)
      (mkMarker "n" [('O', "x")] []) = Except.ok (Except.error lenError) ∧
    (Except.error lenError : Except String (List Char)) ≠ Except.ok [] := by
  exact ⟨rfl, by simp⟩

/-- C10 (amended): for markers built from a nonempty marker string and a
sequence of matching length, `filter(sequence)` with no excluded characters
returns the empty string (and the empty coordinate list with
`output_coords=True`), because the union over zero excluded characters is
empty. -/
theorem filter_no_exclude_chars (nm : String) (cd : List (Char × String))
    (s : List Char) (m : Marker) (sequence : List Char)
    (h : mkMarker nm cd s = Except.ok m) (hne : s ≠ [])
    (hlen : sequence.length = s.length) :
    m.filterSeq sequence [] false = Except.ok [] ∧
    m.filterCoords sequence [] false = Except.ok [] := by
  have h1 : m.filterCoords sequence [] false = Except.ok [] := by
    rw [filterCoords_spec h hne sequence [] false hlen]
    congr 1
    simp
  refine ⟨?_, h1⟩
  unfold Marker.filterSeq
  rw [h1]
  rfl

/-- C10 witness: the empty filter at the concrete test marker. -/
theorem filter_no_exclude_chars_witness :
    ∃ m, mkMarker "test" testCd testMarkerSeq = Except.ok m ∧
      m.filterSeq testSeq [] false = Except.ok [] := by
  obtain ⟨h1, -⟩ := filter_no_exclude_chars "test" testCd testMarkerSeq _
    testSeq rfl (by decide) (by decide)
  exact ⟨_, rfl, h1⟩

end Bseq
